import Mathlib

/-!
Verification of the option-documentation extractor of nix-options-doc.

The definitions below are a shallow embedding of the Rust sources:

- `src/utils.rs` : apply_replacements, convert_admonitions, clean_description,
  clean_literal_expr, custom_dedent (with textwrap::dedent), process_nix_file;
- `src/parser.rs` : visit_node, parse_attrpath, process_description, parse_attrset;
- `src/lib.rs` : the older in-crate revision of collect_options, parse_attrpath
  and parse_attrset (with its retain/push deduplication);
- `src/types.rs` : NixType and NixType.from_nix_str.

Strings are modelled as lists of characters (byte indices in the Rust code
are character indices here; all inputs of interest are ASCII).  Regex-based
replacement loops are modelled as explicit left-to-right scanners with a fuel
argument equal to the input length, which the scanners never exhaust because
each step consumes at least one character.
-/

/-- Opening curly brace character. -/
def braceO : Char := Char.ofNat 123

/-- Closing curly brace character. -/
def braceC : Char := Char.ofNat 125

/-- Backtick character. -/
def btick : Char := Char.ofNat 96

/-- Single-quote character. -/
def squote : Char := Char.ofNat 39

/-- Double-quote character. -/
def dquote : Char := Char.ofNat 34

/-- Test whether the second list begins with the first (pattern comes first). -/
def startsChars : List Char → List Char → Bool
  | [], _ => true
  | _ :: _, [] => false
  | p :: ps, c :: cs => p = c && startsChars ps cs

/-- Remove whitespace from both ends, as Rust str::trim. -/
def trimChars (cs : List Char) : List Char :=
  ((cs.dropWhile (fun c => c.isWhitespace)).reverse.dropWhile
    (fun c => c.isWhitespace)).reverse

/-!
Model of `apply_replacements` (src/utils.rs): the regex form dollar-brace
name brace, with the name a nonempty run of characters other than the closing
brace, is replaced using the table when the name is a key and restored
verbatim otherwise.
-/

/-- Try to match a variable occurrence at the head of the input; on success
return the inner name and the total matched length. -/
def matchVar (cs : List Char) : Option (String × Nat) :=
  match cs with
  | c0 :: c1 :: rest =>
    if c0 = '$' && c1 = braceO then
      let nm := rest.takeWhile (fun c => c ≠ braceC)
      if nm.isEmpty then none
      else
        match rest.drop nm.length with
        | c2 :: _ => if c2 = braceC then some (String.mk nm, nm.length + 3) else none
        | [] => none
    else none
  | _ => none

/-- Resolve one matched variable: table value when present, the original
matched text otherwise. -/
def resolveVar (tbl : List (String × String)) (nm : String) : List Char :=
  match tbl.lookup nm with
  | some v => v.data
  | none => '$' :: braceO :: (nm.data ++ [braceC])

/-- Left-to-right scanner of the replacement regex, with fuel. -/
def replaceVarsAux (tbl : List (String × String)) : Nat → List Char → List Char
  | 0, cs => cs
  | _ + 1, [] => []
  | fuel + 1, c :: rest =>
    match matchVar (c :: rest) with
    | some (nm, len) =>
      resolveVar tbl nm ++ replaceVarsAux tbl fuel ((c :: rest).drop len)
    | none => c :: replaceVarsAux tbl fuel rest

/-- Model of apply_replacements from src/utils.rs.  The substitution table is
an association list looked up by exact key. -/
def apply_replacements (text : String) (tbl : List (String × String)) : String :=
  if tbl.isEmpty then text
  else String.mk (replaceVarsAux tbl text.data.length text.data)

/-!
Model of `convert_admonitions` (src/utils.rs): pandoc-style fenced blocks are
rewritten to GitHub callouts.
-/

/-- Character class of the regex range a-z. -/
def isLowerAZ (c : Char) : Bool := 'a' ≤ c && c ≤ 'z'

/-- Mapping of pandoc admonition kinds to GitHub kinds, from the match in
convert_admonitions. -/
def githubType (k : String) : String :=
  if k = "note" then "NOTE"
  else if k = "warning" || k = "caution" then "WARNING"
  else if k = "important" then "IMPORTANT"
  else if k = "tip" then "TIP"
  else "NOTE"

/-- Index of the first occurrence of three consecutive colons. -/
def firstTripleIdx : List Char → Option Nat
  | [] => none
  | c :: t =>
    if startsChars [':', ':', ':'] (c :: t) then some 0
    else (firstTripleIdx t).map (· + 1)

/-- Try to match one admonition block at the head of the input; on success
return the kind, the raw content and the total matched length. -/
def matchAdmonition (cs : List Char) : Option (String × List Char × Nat) :=
  if startsChars [':', ':', ':'] cs then
    let afterColons := cs.drop 3
    let ws := afterColons.takeWhile (fun c => c.isWhitespace)
    match afterColons.drop ws.length with
    | c1 :: c2 :: rest =>
      if c1 = braceO && c2 = '.' then
        let kd := rest.takeWhile isLowerAZ
        if kd.isEmpty then none
        else
          match rest.drop kd.length with
          | c3 :: afterBrace =>
            if c3 = braceC then
              match firstTripleIdx afterBrace with
              | some i =>
                some (String.mk kd, afterBrace.take i,
                  3 + ws.length + 2 + kd.length + 1 + i + 3)
              | none => none
            else none
          | [] => none
      else none
    | _ => none
  else none

/-- Prefix every line break with a quote marker, as the content replacement in
convert_admonitions. -/
def replaceNlChars : List Char → List Char
  | [] => []
  | c :: t =>
    if c = '\n' then '\n' :: '>' :: ' ' :: replaceNlChars t
    else c :: replaceNlChars t

/-- Replacement text for one matched admonition block. -/
def admonitionRepl (kd : String) (content : List Char) : List Char :=
  "> [!".data ++ (githubType kd).data ++ "]  \n> ".data
    ++ replaceNlChars (trimChars content)

/-- Left-to-right scanner of the admonition regex, with fuel. -/
def convertAdmonitionsAux : Nat → List Char → List Char
  | 0, cs => cs
  | _ + 1, [] => []
  | fuel + 1, c :: rest =>
    match matchAdmonition (c :: rest) with
    | some (kd, content, len) =>
      admonitionRepl kd content ++ convertAdmonitionsAux fuel ((c :: rest).drop len)
    | none => c :: convertAdmonitionsAux fuel rest

/-- Model of convert_admonitions from src/utils.rs. -/
def convert_admonitions (s : String) : String :=
  String.mk (convertAdmonitionsAux s.data.length s.data)

/-!
Model of the directive-stripping regex of `clean_description` (src/utils.rs):
a brace-delimited lowercase role immediately followed by a backtick code span
is replaced by the code span alone.
-/

/-- Try to match one directive at the head of the input; on success return the
replacement (the code span with its backticks) and the total matched length. -/
def matchDirective (cs : List Char) : Option (List Char × Nat) :=
  match cs with
  | c0 :: rest =>
    if c0 = braceO then
      let role := rest.takeWhile isLowerAZ
      if role.isEmpty then none
      else
        match rest.drop role.length with
        | c1 :: rest2 =>
          if c1 = braceC then
            match rest2 with
            | c2 :: rest3 =>
              if c2 = btick then
                let code := rest3.takeWhile (fun c => c ≠ btick)
                if code.isEmpty then none
                else
                  match rest3.drop code.length with
                  | c3 :: _ =>
                    if c3 = btick then
                      some (btick :: code ++ [btick], role.length + code.length + 4)
                    else none
                  | [] => none
              else none
            | [] => none
          else none
        | [] => none
    else none
  | [] => none

/-- Left-to-right scanner of the directive regex, with fuel. -/
def stripDirectivesAux : Nat → List Char → List Char
  | 0, cs => cs
  | _ + 1, [] => []
  | fuel + 1, c :: rest =>
    match matchDirective (c :: rest) with
    | some (repl, len) =>
      repl ++ stripDirectivesAux fuel ((c :: rest).drop len)
    | none => c :: stripDirectivesAux fuel rest

/-- Model of clean_description from src/utils.rs: strip directives, then
convert admonitions. -/
def clean_description (s : String) : String :=
  convert_admonitions (String.mk (stripDirectivesAux s.data.length s.data))

/-!
Model of `custom_dedent` (src/utils.rs) and of the textwrap dedent function it
calls: the first line is preserved and the remaining text is dedented.
-/

/-- Split on line-break characters; a final break yields a trailing empty
segment, matching how the split feeds the Rust lines iterator below. -/
def splitNl : List Char → List (List Char)
  | [] => [[]]
  | c :: t =>
    if c = '\n' then [] :: splitNl t
    else
      match splitNl t with
      | h :: r => (c :: h) :: r
      | [] => [[c]]

/-- Check for a trailing line break, as Rust str::ends_with of a newline. -/
def endsNl (cs : List Char) : Bool :=
  match cs.getLast? with
  | some c => c = '\n'
  | none => false

/-- Model of the Rust lines iterator restricted to splitting: empty input has
no lines and a trailing break produces no trailing empty line. -/
def linesRaw (cs : List Char) : List (List Char) :=
  if cs.isEmpty then []
  else if endsNl cs then (splitNl cs).dropLast
  else splitNl cs

/-- Strip one trailing carriage return, as the Rust lines iterator does. -/
def stripCR (l : List Char) : List Char :=
  match l.getLast? with
  | some c => if c = '\r' then l.dropLast else l
  | none => l

/-- Lines of a text as the Rust lines iterator yields them. -/
def linesOf (cs : List Char) : List (List Char) :=
  (linesRaw cs).map stripCR

/-- Position of the first character difference between a line and the current
common indent, or the line length when no difference occurs within the zipped
range; mirrors the second prefix loop of textwrap dedent. -/
def mismatchIdx : Nat → List Char → List Char → Nat → Nat
  | _, [], _, lineLen => lineLen
  | _, _, [], lineLen => lineLen
  | j, a :: as, b :: bs, lineLen =>
    if a ≠ b then j else mismatchIdx (j + 1) as bs lineLen

/-- Shorten the current common indent against one further line, as one
iteration of the second prefix loop of textwrap dedent. -/
def shortenIndent (p l : List Char) : List Char :=
  let i := mismatchIdx 0 l p l.length
  if i < l.length ∧ i < p.length then p.take i else p

/-- Fold of shortenIndent over the remaining lines. -/
def foldIndent : List Char → List (List Char) → List Char
  | p, [] => p
  | p, l :: ls => foldIndent (shortenIndent p l) ls

/-- Common indent of a line list: the leading whitespace of the first line
holding a non-whitespace character, shortened against every later line;
mirrors the two prefix loops of textwrap dedent. -/
def computeIndent : List (List Char) → List Char
  | [] => []
  | l :: ls =>
    if l.any (fun c => ¬ c.isWhitespace) then
      foldIndent (l.takeWhile (fun c => c.isWhitespace)) ls
    else computeIndent ls

/-- Rebuild one line in the result loop of textwrap dedent: a line that starts
with the indent and holds a non-whitespace character keeps its tail, every
other line is emptied. -/
def processLine (p l : List Char) : List Char :=
  if startsChars p l ∧ l.any (fun c => ¬ c.isWhitespace) then l.drop p.length
  else []

/-- Model of textwrap dedent. -/
def dedentChars (cs : List Char) : List Char :=
  let ls := linesOf cs
  let p := computeIndent ls
  let body := ls.flatMap (fun l => processLine p l ++ ['\n'])
  if endsNl body ∧ ¬ endsNl cs then body.dropLast else body

/-- Model of custom_dedent from src/utils.rs: the text before the first line
break is preserved and the rest, break included, is dedented. -/
def custom_dedent (s : String) : String :=
  let cs := s.data
  let firstPart := cs.takeWhile (fun c => c ≠ '\n')
  if firstPart.length = cs.length then s
  else String.mk (firstPart ++ dedentChars (cs.drop firstPart.length))

/-!
Model of `clean_literal_expr` (src/utils.rs): unwrap literalExpression
markers around string payloads.
-/

/-- Indices at which the pattern occurs in the text. -/
def occIdxs (cs pat : List Char) : List Nat :=
  (List.range (cs.length + 1)).filter (fun i => startsChars pat (cs.drop i))

/-- First occurrence index of the pattern, as Rust str::find. -/
def findSubIdx (cs pat : List Char) : Option Nat := (occIdxs cs pat).head?

/-- Last occurrence index of the pattern, as Rust str::rfind. -/
def rfindSubIdx (cs pat : List Char) : Option Nat := (occIdxs cs pat).getLast?

/-- Pair of single-quote characters, the multi-line string delimiter. -/
def dsq : List Char := [squote, squote]

/-- Model of clean_literal_expr from src/utils.rs. -/
def clean_literal_expr (value : String) : String :=
  let t := trimChars value.data
  if startsChars "lib.literalExpression".data t
      || startsChars "literalExpression".data t then
    match findSubIdx t dsq with
    | some startPos =>
      match rfindSubIdx t dsq with
      | some endPos =>
        if startPos + 2 < endPos then
          String.mk (trimChars ((t.drop (startPos + 2)).take (endPos - (startPos + 2))))
        else String.mk t
      | none => String.mk t
    | none =>
      match findSubIdx t [dquote] with
      | some startPos =>
        match rfindSubIdx t [dquote] with
        | some endPos =>
          if startPos + 1 < endPos then
            String.mk (trimChars ((t.drop (startPos + 1)).take (endPos - (startPos + 1))))
          else String.mk t
        | none => String.mk t
      | none => String.mk t
  else String.mk t

/-!
Model of `process_description` (src/parser.rs): substitution, then dedent,
then directive stripping and admonition conversion.
-/

/-- Model of process_description from src/parser.rs. -/
def process_description (description : String) (tbl : List (String × String)) : String :=
  clean_description (custom_dedent (apply_replacements description tbl))

/-!
Model of `NixType` and `NixType::from_nix_str` (src/types.rs).
-/

/-- Test whether the pattern occurs anywhere in the text, as Rust
str::contains. -/
def containsSub (cs pat : List Char) : Bool :=
  (occIdxs cs pat).isEmpty = false

/-- Semantic type union from src/types.rs. -/
inductive NixType where
  | bool : NixType
  | int : NixType
  | float : NixType
  | str : NixType
  | path : NixType
  | enum : List String → NixType
  | attrs : NixType
  | list : NixType
  | set : NixType
  | option : NixType → NixType
  | either : List NixType → NixType
  | unknown : String → NixType
  deriving Repr

/-- Model of NixType::from_nix_str from src/types.rs: an exact-match table for
the basic forms, then substring checks for the compound forms, then the
unknown fallback carrying the raw text. -/
def NixType.from_nix_str (type_str : String) : NixType :=
  if type_str = "types.bool" then .bool
  else if type_str = "types.int" ∨ type_str = "types.integer" then .int
  else if type_str = "types.float" then .float
  else if type_str = "types.str" ∨ type_str = "types.string" then .str
  else if type_str = "types.path" then .path
  else if type_str = "types.attrs" then .attrs
  else if type_str = "types.listOf" then .list
  else if containsSub type_str.data "types.enum".data then .enum ["..."]
  else if containsSub type_str.data "types.option".data then .option (.unknown "")
  else if containsSub type_str.data "types.either".data then .either []
  else .unknown type_str

/-!
Record types.  `OptionDoc` is the record of src/parser.rs (string-typed
nix_type, with an example field); `OptionDocLib` is the record of src/lib.rs
(NixType-typed, no example field).
-/

/-- Option record of src/parser.rs. -/
structure OptionDoc where
  name : String
  description : Option String
  nix_type : String
  default_value : Option String
  «example» : Option String
  file_path : String
  line_number : Nat
  deriving DecidableEq, Repr

/-- Option record of src/lib.rs. -/
structure OptionDocLib where
  name : String
  description : Option String
  nix_type : NixType
  default_value : Option String
  file_path : String
  line_number : Nat
  deriving Repr

/-!
Model of `parse_attrpath` (src/lib.rs, lines 388-413): attribute-path children
are folded into a dotted name.  Only identifier and dynamic children
contribute; a dynamic child is stripped of its delimiters, trimmed, looked up
in the substitution table and re-rendered when absent.
-/

/-- Node kinds an attribute-path child can have. -/
inductive SegKind where
  | ident : SegKind
  | dynamic : SegKind
  | strSeg : SegKind
  | otherSeg : SegKind
  deriving DecidableEq, Repr

/-- Attribute-path child: a node kind together with its source text. -/
structure AttrSeg where
  kind : SegKind
  text : String
  deriving DecidableEq, Repr

/-- Fuel-driven loop removing copies of a nonempty pattern from the front. -/
def trimStartMatchesAux (pat : List Char) : Nat → List Char → List Char
  | 0, cs => cs
  | _ + 1, [] => []
  | fuel + 1, c :: t =>
    if pat.isEmpty = false ∧ startsChars pat (c :: t) then
      trimStartMatchesAux pat fuel ((c :: t).drop pat.length)
    else c :: t

/-- Remove every copy of the pattern from the front, as Rust
str::trim_start_matches. -/
def trimStartMatches (pat cs : List Char) : List Char :=
  trimStartMatchesAux pat cs.length cs

/-- Remove every copy of the pattern from the back, as Rust
str::trim_end_matches. -/
def trimEndMatches (pat : List Char) (cs : List Char) : List Char :=
  (trimStartMatches pat.reverse cs.reverse).reverse

/-- Inner variable name of a dynamic segment, per src/lib.rs: strip the
leading dollar-brace and trailing brace, then trim. -/
def dynamicVarName (text : String) : String :=
  String.mk (trimChars (trimEndMatches [braceC]
    (trimStartMatches ['$', braceO] text.data)))

/-- Contribution of one attribute-path child in src/lib.rs parse_attrpath: an
identifier keeps its text, a dynamic child is resolved through the table or
re-rendered from the trimmed name, every other child contributes nothing. -/
def attrSegResolve (tbl : List (String × String)) (s : AttrSeg) : Option String :=
  match s.kind with
  | .ident => some s.text
  | .dynamic =>
    let varName := dynamicVarName s.text
    some ((tbl.lookup varName).getD ("$" ++ String.mk [braceO] ++ varName
      ++ String.mk [braceC]))
  | _ => none

/-- Model of parse_attrpath from src/lib.rs: the contributing children joined
with dots. -/
def parse_attrpath_lib (segs : List AttrSeg) (tbl : List (String × String)) : String :=
  String.intercalate "." (segs.filterMap (attrSegResolve tbl))

/-!
Model of the record insertion of `parse_attrset` (src/lib.rs, lines 477-485
and 530-538): every record with the current name is removed before the new
record is pushed, and of the sequential file loop of `collect_options`
(src/lib.rs, lines 281-325), which accumulates all files into one shared
vector.
-/

/-- Model of the retain-then-push insertion of src/lib.rs parse_attrset. -/
def insertOption (acc : List OptionDocLib) (r : OptionDocLib) : List OptionDocLib :=
  acc.filter (fun opt => opt.name ≠ r.name) ++ [r]

/-- Model of the collection pass of src/lib.rs collect_options over the walk
results: each file contributes, in processing order, the record sequence its
tree walk recognizes, and every record is inserted into the shared vector. -/
def collectPass (files : List (List OptionDocLib)) : List OptionDocLib :=
  files.foldl (fun acc f => f.foldl insertOption acc) []

/-!
Model of the rnix syntax tree as consumed by src/parser.rs: a node exposes its
kind, its source text, its starting offset and its child nodes (tokens are not
children, matching the rowan children iterator).
-/

/-- Node kinds distinguished by src/parser.rs. -/
inductive SynKind where
  | attrSet : SynKind
  | attrpathValue : SynKind
  | attrpath : SynKind
  | apply : SynKind
  | select : SynKind
  | ident : SynKind
  | strNode : SynKind
  | dynamic : SynKind
  | withExpr : SynKind
  | otherKind : SynKind
  deriving DecidableEq, Repr

/-- Syntax node: kind, source text, start offset, children. -/
structure SynNode where
  kind : SynKind
  text : String
  startOffset : Nat
  children : List SynNode

/-- Size of a child node is smaller than the size of its parent; used for
termination of the tree walk. -/
theorem sizeOf_child_lt (n c : SynNode) (hc : c ∈ n.children) : sizeOf c < sizeOf n := by
  cases n with
  | mk k t off ch =>
    have h1 : sizeOf c < sizeOf ch := List.sizeOf_lt_of_mem hc
    simp only [SynNode.mk.sizeOf_spec]
    omega

/-- Model of get_line_number from src/parser.rs: count line breaks before the
start offset of the node, one-based. -/
def get_line_number (n : SynNode) (source_text : String) : Nat :=
  ((source_text.data.take n.startOffset).filter (fun c => c = '\n')).length + 1

/-- Remove characters of the set from both ends, as Rust str::trim_matches
with a character array. -/
def trimMatchesChars (set cs : List Char) : List Char :=
  ((cs.dropWhile (fun c => set.contains c)).reverse.dropWhile
    (fun c => set.contains c)).reverse

/-- Model of parse_attrpath from src/parser.rs: every child contributes its
text with replacements applied, joined with dots. -/
def parse_attrpath_new (n : SynNode) (tbl : List (String × String)) : String :=
  String.intercalate "." (n.children.map (fun c => apply_replacements c.text tbl))

/-- Accumulator of the mkOption field scan in src/parser.rs parse_attrset. -/
structure MkOptionAcc where
  nix_type : String
  description : Option String
  default_value : Option String
  «example» : Option String

/-- One step of the mkOption field scan: a direct attrpath-value child of the
argument set updates the matching recognized field. -/
def mkOptionStep (tbl : List (String × String)) (st : MkOptionAcc) (attr : SynNode) :
    MkOptionAcc :=
  if attr.kind = .attrpathValue then
    let attr_key := ((attr.children.find? (fun c => c.kind = .attrpath)).bind
      (fun ap => ap.children.head?)).map (fun c => c.text)
    let attr_value := attr.children.get? 1
    match attr_key, attr_value with
    | some "type", some v => { st with nix_type := custom_dedent v.text }
    | some "description", some v =>
      { st with description := some (process_description
          (String.mk (trimMatchesChars [dquote, squote] v.text.data)) tbl) }
    | some "default", some v =>
      { st with default_value := some (custom_dedent (clean_literal_expr v.text)) }
    | some "example", some v =>
      { st with «example» := some (custom_dedent (clean_literal_expr v.text)) }
    | _, _ => st
  else st

/-- Function name resolution of src/parser.rs parse_attrset: the trailing
identifier of a member-select chain, else a bare identifier. -/
def applyFnName (n : SynNode) : Option String :=
  let select_fn := ((n.children.find? (fun c => c.kind = .select)).bind
    (fun sel => sel.children.getLast?)).map (fun c => c.text)
  let ident_fn :=
    if select_fn.isNone then
      (n.children.find? (fun c => c.kind = .ident)).map (fun c => c.text)
    else none
  select_fn.orElse (fun _ => ident_fn)

/-- Apply-node handling of src/parser.rs parse_attrset: recognize the two
declaration idioms and emit one record, or nothing. -/
def parseApplyNode (n : SynNode) (file_path current_pre : String)
    (tbl : List (String × String)) (source_text : String) : List OptionDoc :=
  match applyFnName n with
  | some fnm =>
    if fnm = "mkEnableOption" then
      let description := (n.children.find? (fun c => c.kind = .strNode)).map
        (fun c => process_description
          (String.mk (trimMatchesChars [dquote, squote] c.text.data)) tbl)
      [{ name := current_pre, description := description, nix_type := "boolean",
         default_value := some "false", «example» := some "true",
         file_path := file_path, line_number := get_line_number n source_text }]
    else if fnm = "mkOption" then
      let st :=
        match n.children.find? (fun c => c.kind = .attrSet) with
        | some attr_set =>
          attr_set.children.foldl (mkOptionStep tbl)
            { nix_type := "any", description := none, default_value := none,
              «example» := none }
        | none =>
          { nix_type := "any", description := none, default_value := none,
            «example» := none }
      [{ name := current_pre, description := st.description, nix_type := st.nix_type,
         default_value := st.default_value, «example» := st.«example»,
         file_path := file_path, line_number := get_line_number n source_text }]
    else []
  | none => []

mutual

/-- Model of visit_node from src/parser.rs: an attrpath-value node resolves
its path and dispatches its value, every other node is traversed with the
prefix unchanged. -/
def visit_node (n : SynNode) (file_path pre : String) (tbl : List (String × String))
    (source_text : String) : List OptionDoc :=
  if n.kind = .attrpathValue then
    let key := (n.children.find? (fun c => c.kind = .attrpath)).map
      (fun ap => parse_attrpath_new ap tbl)
    match hv : n.children.get? 1 with
    | some value_node =>
      match key with
      | some k =>
        have : sizeOf value_node < sizeOf n :=
          sizeOf_child_lt n value_node (List.get?_mem hv)
        parse_attrset value_node file_path
          (if pre = "" then k else pre ++ "." ++ k) tbl source_text
      | none => []
    | none => []
  else
    (n.children.attach.map (fun (c : {x // x ∈ n.children}) =>
      have : sizeOf c.1 < sizeOf n := sizeOf_child_lt n c.1 c.2
      visit_node c.1 file_path pre tbl source_text)).flatten
termination_by sizeOf n

/-- Model of parse_attrset from src/parser.rs: attribute sets recurse into
their children, apply nodes are checked for the declaration idioms, scoped
expressions recurse into their body, everything else is ignored. -/
def parse_attrset (n : SynNode) (file_path current_pre : String)
    (tbl : List (String × String)) (source_text : String) : List OptionDoc :=
  match n.kind with
  | .attrSet =>
    (n.children.attach.map (fun (c : {x // x ∈ n.children}) =>
      have : sizeOf c.1 < sizeOf n := sizeOf_child_lt n c.1 c.2
      visit_node c.1 file_path current_pre tbl source_text)).flatten
  | .apply => parseApplyNode n file_path current_pre tbl source_text
  | .withExpr =>
    match hv : n.children.get? 1 with
    | some body =>
      have : sizeOf body < sizeOf n := sizeOf_child_lt n body (List.get?_mem hv)
      visit_node body file_path current_pre tbl source_text
    | none => []
  | _ => []
termination_by sizeOf n

end

/-!
Model of the collection pass.  `collect_options` of src/lib.rs walks the file
list sequentially with one shared record vector and returns an error as soon
as a file cannot be read; `process_nix_file` of src/utils.rs processes one
file and degrades every per-file failure to an empty record list.  The walk of
one file body is abstracted as a function from the body to the record
sequence the tree walk recognizes in order.
-/

/-- Request-level failures of the collection pass of src/lib.rs. -/
inductive CollectErr where
  | io : CollectErr
  | walkdir : CollectErr
  deriving DecidableEq, Repr

/-- File loop of src/lib.rs collect_options: a file body of none means the
read failed, which returns the error immediately; a readable body has its
walk results inserted into the shared vector. -/
def collectFilesLib (walk : String → List OptionDocLib) :
    List (Option String) → List OptionDocLib → Except CollectErr (List OptionDocLib)
  | [], acc => .ok acc
  | none :: _, _ => .error .io
  | some content :: rest, acc =>
    collectFilesLib walk rest ((walk content).foldl insertOption acc)

/-- Model of collect_options from src/lib.rs: a missing root directory fails
while enumerating entries, before any file is processed; otherwise the files
are processed sequentially. -/
def collect_options_lib (root : Option (List (Option String)))
    (walk : String → List OptionDocLib) : Except CollectErr (List OptionDocLib) :=
  match root with
  | none => .error .walkdir
  | some files => collectFilesLib walk files []

/-- Model of process_nix_file from src/utils.rs: an unreadable file and a
failed tree walk both contribute an empty record list. -/
def process_nix_file (readResult : Option String)
    (walk : String → Except String (List OptionDoc)) : List OptionDoc :=
  match readResult with
  | none => []
  | some content =>
    match walk content with
    | .ok opts => opts
    | .error _ => []

/-!
Auxiliary definitions used by the claim statements and witnesses.
-/

/-- Exact-match inputs of the primitive table of NixType.from_nix_str. -/
def primitiveTypeStrs : List String :=
  ["types.bool", "types.int", "types.integer", "types.float", "types.str",
   "types.string", "types.path", "types.attrs", "types.listOf"]

/-- Decomposition of a text into literal stretches and variable placeholders,
used to state what the substitution scanner does. -/
inductive RPiece where
  | lit : String → RPiece
  | var : String → RPiece

/-- Rendered source text of one piece; a variable renders as the dollar-brace
placeholder around its name. -/
def renderPiece : RPiece → List Char
  | .lit s => s.data
  | .var n => '$' :: braceO :: (n.data ++ [braceC])

/-- Rendered source text of a piece list. -/
def renderPieces (ps : List RPiece) : List Char := ps.flatMap renderPiece

/-- Substituted text of one piece: literals unchanged, variables resolved
through the table or restored verbatim. -/
def resolvePiece (tbl : List (String × String)) : RPiece → List Char
  | .lit s => s.data
  | .var n => resolveVar tbl n

/-- Substituted text of a piece list. -/
def resolvePieces (tbl : List (String × String)) (ps : List RPiece) : List Char :=
  ps.flatMap (resolvePiece tbl)

/-- Well-formedness of a piece: literal stretches hold no dollar sign and
variable names are nonempty without a closing brace. -/
def goodPiece : RPiece → Prop
  | .lit s => '$' ∉ s.data
  | .var n => n.data ≠ [] ∧ braceC ∉ n.data

/-- Concrete apply node of a flag-enable declaration, used as witness input. -/
def enableNode : SynNode :=
  { kind := .apply, text := "lib.mkEnableOption \"Simple test option\"",
    startOffset := 0,
    children :=
      [{ kind := .select, text := "lib.mkEnableOption", startOffset := 0,
         children :=
           [{ kind := .ident, text := "lib", startOffset := 0, children := [] },
            { kind := .ident, text := "mkEnableOption", startOffset := 4,
              children := [] }] },
       { kind := .strNode, text := "\"Simple test option\"", startOffset := 19,
         children := [] }] }

/-- Concrete literalExpression sample holding one multi-line delimiter and a
valid double-quote pair, used as witness input. -/
def litSample : String :=
  "literalExpression " ++ String.mk [squote, squote] ++ " \"x\""

/-!
Claim theorems.
-/

/-- C8: the type classifier maps the canonical primitive expressions to their
kinds by exact string match; otherwise a string containing the enum, option or
either wrapper form yields the corresponding compound kind with an empty or
placeholder payload (checked in that order, without recursive classification);
every other string yields the unknown kind carrying the raw string. -/
theorem C8_type_classifier :
    (NixType.from_nix_str "types.bool" = .bool) ∧
    (NixType.from_nix_str "types.int" = .int) ∧
    (NixType.from_nix_str "types.integer" = .int) ∧
    (NixType.from_nix_str "types.float" = .float) ∧
    (NixType.from_nix_str "types.str" = .str) ∧
    (NixType.from_nix_str "types.string" = .str) ∧
    (NixType.from_nix_str "types.path" = .path) ∧
    (NixType.from_nix_str "types.attrs" = .attrs) ∧
    (NixType.from_nix_str "types.listOf" = .list) ∧
    (∀ s : String, s ∉ primitiveTypeStrs →
      containsSub s.data "types.enum".data = true →
      NixType.from_nix_str s = .enum ["..."]) ∧
    (∀ s : String, s ∉ primitiveTypeStrs →
      containsSub s.data "types.enum".data = false →
      containsSub s.data "types.option".data = true →
      NixType.from_nix_str s = .option (.unknown "")) ∧
    (∀ s : String, s ∉ primitiveTypeStrs →
      containsSub s.data "types.enum".data = false →
      containsSub s.data "types.option".data = false →
      containsSub s.data "types.either".data = true →
      NixType.from_nix_str s = .either []) ∧
    (∀ s : String, s ∉ primitiveTypeStrs →
      containsSub s.data "types.enum".data = false →
      containsSub s.data "types.option".data = false →
      containsSub s.data "types.either".data = false →
      NixType.from_nix_str s = .unknown s) := by
  refine ⟨rfl, rfl, rfl, rfl, rfl, rfl, rfl, rfl, rfl, ?_, ?_, ?_, ?_⟩ <;>
    intro s hmem <;>
    simp only [primitiveTypeStrs, List.mem_cons, List.not_mem_nil, or_false,
      not_or] at hmem <;>
    obtain ⟨h1, h2, h3, h4, h5, h6, h7, h8, h9⟩ := hmem
  · intro he
    simp [NixType.from_nix_str, h1, h2, h3, h4, h5, h6, h7, h8, h9, he]
  · intro he ho
    simp [NixType.from_nix_str, h1, h2, h3, h4, h5, h6, h7, h8, h9, he, ho]
  · intro he ho hx
    simp [NixType.from_nix_str, h1, h2, h3, h4, h5, h6, h7, h8, h9, he, ho, hx]
  · intro he ho hx
    simp [NixType.from_nix_str, h1, h2, h3, h4, h5, h6, h7, h8, h9, he, ho, hx]

/-- C8 witness: the classifier evaluated on concrete compound and unknown
inputs through the quantified parts of the theorem. -/
theorem C8_witness :
    NixType.from_nix_str "lib.types.enum [ \"a\" \"b\" ]" = .enum ["..."] ∧
    NixType.from_nix_str "with types.option; str" = .option (.unknown "") ∧
    NixType.from_nix_str "x types.either y" = .either [] ∧
    NixType.from_nix_str "lib.types.anything" = .unknown "lib.types.anything" := by
  obtain ⟨-, -, -, -, -, -, -, -, -, he, ho, hx, hu⟩ := C8_type_classifier
  exact ⟨he _ (by decide) (by decide),
    ho _ (by decide) (by decide) (by decide),
    hx _ (by decide) (by decide) (by decide) (by decide),
    hu _ (by decide) (by decide) (by decide) (by decide)⟩

/-- C9: in the attribute-path resolution of src/lib.rs, a segment whose node
kind is neither an identifier nor a dynamic interpolation is silently omitted
from the resolved dotted name, and a path consisting only of such segments
resolves to the empty string. -/
theorem C9_attrpath_omission :
    (∀ (segs : List AttrSeg) (tbl : List (String × String)),
      parse_attrpath_lib segs tbl =
        parse_attrpath_lib (segs.filter
          (fun s => s.kind = SegKind.ident ∨ s.kind = SegKind.dynamic)) tbl) ∧
    (∀ (segs : List AttrSeg) (tbl : List (String × String)),
      (∀ s ∈ segs, s.kind ≠ SegKind.ident ∧ s.kind ≠ SegKind.dynamic) →
      parse_attrpath_lib segs tbl = "") := by
  constructor
  · intro segs tbl
    have key : ∀ gs : List AttrSeg, gs.filterMap (attrSegResolve tbl) =
        (gs.filter (fun s => s.kind = SegKind.ident ∨ s.kind = SegKind.dynamic)).filterMap
          (attrSegResolve tbl) := by
      intro gs
      induction gs with
      | nil => rfl
      | cons s rest ih =>
        cases hk : s.kind <;>
          simp [List.filterMap_cons, List.filter_cons, hk, attrSegResolve, ih]
    unfold parse_attrpath_lib
    rw [key]
  · intro segs tbl h
    have key : segs.filterMap (attrSegResolve tbl) = [] := by
      induction segs with
      | nil => rfl
      | cons s rest ih =>
        obtain ⟨h1, h2⟩ := h s (List.mem_cons_self s rest)
        have hrest := ih (fun x hx => h x (List.mem_cons_of_mem s hx))
        cases hk : s.kind
        case ident => exact absurd hk h1
        case dynamic => exact absurd hk h2
        all_goals simp [List.filterMap_cons, attrSegResolve, hk, hrest]
    unfold parse_attrpath_lib
    rw [key]
    rfl

/-- C9 witness: a path of one quoted-string segment and one unrecognized
segment resolves to the empty string. -/
theorem C9_witness :
    parse_attrpath_lib [⟨.strSeg, "\"x y\""⟩, ⟨.otherSeg, "(f a)"⟩] [] = "" :=
  C9_attrpath_omission.2 [⟨.strSeg, "\"x y\""⟩, ⟨.otherSeg, "(f a)"⟩] []
    (by decide)

/-- C10: for a trimmed value beginning with a literalExpression marker, the
double-quote fallback is reached only when the text holds no multi-line
delimiter at all; when the delimiter occurs but its last occurrence is not
strictly past the first opening delimiter, the trimmed text is returned
unchanged, regardless of any double-quote pair. -/
theorem C10_literal_expr (v : String)
    (hm : startsChars "lib.literalExpression".data (trimChars v.data) = true ∨
      startsChars "literalExpression".data (trimChars v.data) = true) :
    (∀ p e : Nat, findSubIdx (trimChars v.data) dsq = some p →
      rfindSubIdx (trimChars v.data) dsq = some e → ¬ p + 2 < e →
      clean_literal_expr v = String.mk (trimChars v.data)) ∧
    (∀ p e : Nat, findSubIdx (trimChars v.data) dsq = none →
      findSubIdx (trimChars v.data) [dquote] = some p →
      rfindSubIdx (trimChars v.data) [dquote] = some e → p + 1 < e →
      clean_literal_expr v = String.mk (trimChars
        (((trimChars v.data).drop (p + 1)).take (e - (p + 1))))) := by
  have hcond : (startsChars "lib.literalExpression".data (trimChars v.data) ||
      startsChars "literalExpression".data (trimChars v.data)) = true := by
    rcases hm with h | h <;> simp [h]
  constructor
  · intro p e h1 h2 h3
    simp [clean_literal_expr, hcond, h1, h2, h3]
  · intro p e h1 h2 h3 h4
    simp [clean_literal_expr, hcond, h1, h2, h3, h4]

/-- C10 witness: with a single multi-line delimiter the trimmed text is kept
even though a double-quote pair is present, and with no multi-line delimiter
the double-quote fallback extracts the inner text. -/
theorem C10_witness :
    clean_literal_expr litSample = litSample ∧
    clean_literal_expr "literalExpression \"nginx\"" = "nginx" := by
  constructor
  · have h := (C10_literal_expr litSample (Or.inr (by decide))).1 18 18
      (by decide) (by decide) (by decide)
    exact h.trans (by decide)
  · have h := (C10_literal_expr "literalExpression \"nginx\""
      (Or.inr (by decide))).2 18 24 (by decide) (by decide) (by decide)
      (by decide)
    exact h.trans (by decide)

/-- Names of the shared record vector stay duplicate-free across one
retain-then-push insertion. -/
theorem insertOption_names_nodup (acc : List OptionDocLib) (r : OptionDocLib)
    (h : (acc.map (fun o => o.name)).Nodup) :
    ((insertOption acc r).map (fun o => o.name)).Nodup := by
  unfold insertOption
  rw [List.map_append]
  refine List.Nodup.append ?_ (by simp) ?_
  · exact h.sublist ((List.filter_sublist acc).map (fun o => o.name))
  · intro a ha hb
    simp only [List.map_cons, List.map_nil, List.mem_singleton] at hb
    obtain ⟨x, hx, rfl⟩ := List.mem_map.mp ha
    have hxf := List.mem_filter.mp hx
    rw [decide_eq_true_eq] at hxf
    exact hxf.2 (hb ▸ rfl)

/-- With duplicate-free names, filtering the vector for one name returns at
most its last match. -/
theorem nodup_filter_eq_getLast (nm : String) (acc : List OptionDocLib)
    (h : (acc.map (fun o => o.name)).Nodup) :
    acc.filter (fun r => r.name = nm) =
      ((acc.filter (fun r => r.name = nm)).getLast?).toList := by
  induction acc with
  | nil => rfl
  | cons r rest ih =>
    simp only [List.map_cons, List.nodup_cons] at h
    obtain ⟨hr, hrest⟩ := h
    by_cases hnm : r.name = nm
    · have hempty : rest.filter (fun x => x.name = nm) = [] := by
        rw [List.filter_eq_nil_iff]
        intro x hx
        rw [decide_eq_true_eq]
        intro hx2
        exact hr (by rw [hnm, ← hx2]; exact List.mem_map_of_mem _ hx)
      simp [List.filter_cons, hnm, hempty]
    · simp only [List.filter_cons, decide_eq_true_eq]
      rw [if_neg hnm]
      exact ih hrest

/-- Filtering the folded shared vector for one name returns exactly the last
record of that name in the concatenated input sequence. -/
theorem foldl_insertOption_filter (nm : String) :
    ∀ (l acc : List OptionDocLib), (acc.map (fun o => o.name)).Nodup →
    (l.foldl insertOption acc).filter (fun r => r.name = nm) =
      (((acc ++ l).filter (fun r => r.name = nm)).getLast?).toList := by
  intro l
  induction l with
  | nil =>
    intro acc h
    rw [List.foldl_nil, List.append_nil]
    exact nodup_filter_eq_getLast nm acc h
  | cons r l ih =>
    intro acc h
    rw [List.foldl_cons, ih (insertOption acc r) (insertOption_names_nodup acc r h)]
    by_cases hnm : r.name = nm
    · have h1 : (acc.filter (fun opt => opt.name ≠ r.name)).filter
          (fun x => x.name = nm) = [] := by
        rw [List.filter_eq_nil_iff]
        intro x hx
        have hxf := List.mem_filter.mp hx
        rw [decide_eq_true_eq] at hxf ⊢
        intro hx2
        exact hxf.2 (by rw [hx2, hnm])
      have hfr : (insertOption acc r ++ l).filter (fun x => x.name = nm)
          = r :: l.filter (fun x => x.name = nm) := by
        unfold insertOption
        rw [List.append_assoc, List.filter_append, h1, List.nil_append,
          List.singleton_append, List.filter_cons_of_pos (by simp [hnm])]
      have hfr2 : (acc ++ r :: l).filter (fun x => x.name = nm)
          = acc.filter (fun x => x.name = nm)
            ++ r :: l.filter (fun x => x.name = nm) := by
        rw [List.filter_append, List.filter_cons_of_pos (by simp [hnm])]
      rw [hfr, hfr2, List.getLast?_append_cons]
    · have h2 : (acc.filter (fun opt => opt.name ≠ r.name)).filter
          (fun x => x.name = nm) = acc.filter (fun x => x.name = nm) := by
        rw [List.filter_filter]
        apply List.filter_congr
        intro x _
        by_cases hx : x.name = nm
        · have hxr : ¬ nm = r.name := fun hcon => hnm hcon.symm
          simp [hx, hxr]
        · simp [hx]
      have hfr : (insertOption acc r ++ l).filter (fun x => x.name = nm)
          = acc.filter (fun x => x.name = nm) ++ l.filter (fun x => x.name = nm) := by
        unfold insertOption
        rw [List.append_assoc, List.filter_append, h2, List.singleton_append,
          List.filter_cons_of_neg (by simp [hnm])]
      have hfr2 : (acc ++ r :: l).filter (fun x => x.name = nm)
          = acc.filter (fun x => x.name = nm) ++ l.filter (fun x => x.name = nm) := by
        rw [List.filter_append, List.filter_cons_of_neg (by simp [hnm])]
      rw [hfr, hfr2]

/-- Names of the folded shared vector are duplicate-free. -/
theorem foldl_insertOption_names_nodup :
    ∀ (l acc : List OptionDocLib), (acc.map (fun o => o.name)).Nodup →
    (((l.foldl insertOption acc)).map (fun o => o.name)).Nodup := by
  intro l
  induction l with
  | nil => intro acc h; exact h
  | cons r l ih =>
    intro acc h
    rw [List.foldl_cons]
    exact ih (insertOption acc r) (insertOption_names_nodup acc r h)

/-- Processing files one after the other into the shared vector equals one
fold over the concatenated record sequence. -/
theorem collectPass_eq_foldl_flatten (files : List (List OptionDocLib)) :
    collectPass files = (files.flatten).foldl insertOption [] := by
  suffices h : ∀ (fs : List (List OptionDocLib)) (acc : List OptionDocLib),
      fs.foldl (fun acc f => f.foldl insertOption acc) acc
        = (fs.flatten).foldl insertOption acc by
    exact h files []
  intro fs
  induction fs with
  | nil => intro acc; rfl
  | cons f fs ih =>
    intro acc
    rw [List.foldl_cons, ih, List.flatten_cons, List.foldl_append]

/-- C1, amended: the collection pass of src/lib.rs keeps exactly one record
per resolved name, and the record kept for a name is the last one produced in
processing order across the whole collection, files included (retain removes
every earlier record of the same name before the new record is pushed). -/
theorem C1_dedup_last_wins (files : List (List OptionDocLib)) :
    ((collectPass files).map (fun o => o.name)).Nodup ∧
    ∀ nm : String, (collectPass files).filter (fun r => r.name = nm) =
      (((files.flatten).filter (fun r => r.name = nm)).getLast?).toList := by
  rw [collectPass_eq_foldl_flatten]
  constructor
  · exact foldl_insertOption_names_nodup files.flatten [] (by simp)
  · intro nm
    have h := foldl_insertOption_filter nm files.flatten [] (by simp)
    rw [List.nil_append] at h
    exact h

/-- C1 counterexample: two files each declare the same resolved name; the
record of the second-processed file is the one retained, so the
first-seen-in-processing-order policy of the claim does not hold. -/
theorem C1_counterexample :
    collectPass
      [[{ name := "options.x.enable", description := none, nix_type := .bool,
          default_value := some "false", file_path := "a.nix", line_number := 3 }],
       [{ name := "options.x.enable", description := none, nix_type := .bool,
          default_value := some "false", file_path := "b.nix", line_number := 7 }]]
      = [{ name := "options.x.enable", description := none, nix_type := .bool,
           default_value := some "false", file_path := "b.nix", line_number := 7 }]
      ∧ ("b.nix" : String) ≠ "a.nix" := by
  exact ⟨rfl, by decide⟩

/-- C2: evaluation at the failing input.  In collect_options of src/lib.rs an
unreadable file aborts the whole run with an IO error even when readable
sibling files surround it, while process_nix_file of src/utils.rs skips the
unreadable file with zero records; a missing root directory aborts before any
file is processed. -/
theorem C2_collect_abort_eval (walkLib : String → List OptionDocLib)
    (walkNew : String → Except String (List OptionDoc)) :
    collect_options_lib (some [some "good file", none, some "other file"]) walkLib
      = .error .io ∧
    collect_options_lib none walkLib = .error .walkdir ∧
    process_nix_file none walkNew = [] := by
  refine ⟨?_, rfl, rfl⟩
  simp [collect_options_lib, collectFilesLib]

/-- C4: every apply node whose resolved call name is exactly mkEnableOption
emits exactly one record, with boolean type, default value false and example
true, whatever the description child holds. -/
theorem C4_mkEnableOption_record (n : SynNode) (file_path pre : String)
    (tbl : List (String × String)) (src : String)
    (hk : n.kind = .apply) (hf : applyFnName n = some "mkEnableOption") :
    ∃ r : OptionDoc, parse_attrset n file_path pre tbl src = [r] ∧
      r.nix_type = "boolean" ∧ r.default_value = some "false" ∧
      r.«example» = some "true" ∧ r.name = pre := by
  rw [parse_attrset, hk]
  simp only [parseApplyNode, hf]
  exact ⟨_, rfl, rfl, rfl, rfl, rfl⟩

/-- C4 witness: the theorem applied to a concrete flag-enable apply node. -/
theorem C4_witness :
    enableNode.kind = .apply ∧
    applyFnName enableNode = some "mkEnableOption" ∧
    ∃ r : OptionDoc,
      parse_attrset enableNode "flake.nix" "options.test.simple.enable" [] "" = [r] ∧
      r.nix_type = "boolean" ∧ r.default_value = some "false" ∧
      r.«example» = some "true" ∧ r.name = "options.test.simple.enable" :=
  ⟨rfl, rfl, C4_mkEnableOption_record enableNode "flake.nix"
    "options.test.simple.enable" [] "" rfl rfl⟩

/-- Scanner fuel exhausts only on the empty input. -/
theorem replaceVarsAux_nil (tbl : List (String × String)) (f : Nat) :
    replaceVarsAux tbl f [] = [] := by
  cases f <;> rfl

/-- Variable matches always consume at least one character. -/
theorem matchVar_pos (cs : List Char) (nm : String) (len : Nat)
    (h : matchVar cs = some (nm, len)) : 1 ≤ len := by
  rcases cs with _ | ⟨c0, _ | ⟨c1, rest⟩⟩
  · simp [matchVar] at h
  · simp [matchVar] at h
  · simp only [matchVar] at h
    split at h
    · split at h
      · simp at h
      · split at h
        · split at h
          · simp only [Option.some.injEq, Prod.mk.injEq] at h
            omega
          · simp at h
        · simp at h
    · simp at h

/-- Input not starting with a dollar sign never matches. -/
theorem matchVar_ne_dollar (c : Char) (t : List Char) (hc : c ≠ '$') :
    matchVar (c :: t) = none := by
  cases t with
  | nil => rfl
  | cons c1 rest => simp [matchVar, hc]

/-- Scanner output does not depend on the fuel once the fuel covers the input
length. -/
theorem replaceVarsAux_fuel (tbl : List (String × String)) :
    ∀ (f g : Nat) (cs : List Char), cs.length ≤ f → cs.length ≤ g →
    replaceVarsAux tbl f cs = replaceVarsAux tbl g cs := by
  intro f
  induction f with
  | zero =>
    intro g cs hf _
    rw [List.length_eq_zero.mp (Nat.le_zero.mp hf)]
    rw [replaceVarsAux_nil, replaceVarsAux_nil]
  | succ f ih =>
    intro g cs hf hg
    cases cs with
    | nil => rw [replaceVarsAux_nil, replaceVarsAux_nil]
    | cons c rest =>
      cases g with
      | zero => simp at hg
      | succ g =>
        cases hm : matchVar (c :: rest) with
        | none =>
          simp only [replaceVarsAux, hm]
          rw [ih g rest (by simp at hf; omega) (by simp at hg; omega)]
        | some p =>
          obtain ⟨nm, len⟩ := p
          have hp := matchVar_pos _ _ _ hm
          simp only [replaceVarsAux, hm]
          congr 1
          apply ih g
          · simp at hf ⊢; omega
          · simp at hg ⊢; omega

/-- Run of elements satisfying the predicate followed by a failing element is
what takeWhile returns. -/
theorem takeWhile_append_eq {α : Type} {p : α → Bool} (xs : List α) (y : α)
    (ys : List α) (hx : ∀ x ∈ xs, p x = true) (hy : p y = false) :
    (xs ++ y :: ys).takeWhile p = xs := by
  induction xs with
  | nil => simp [List.takeWhile_cons, hy]
  | cons x xs ih =>
    have h1 := hx x (List.mem_cons_self x xs)
    simp only [List.cons_append, List.takeWhile_cons, h1, if_true]
    rw [ih (fun z hz => hx z (List.mem_cons_of_mem x hz))]

/-- Scanning a dollar-free stretch copies it unchanged. -/
theorem replaceVars_lit (tbl : List (String × String)) (s rest : List Char)
    (hs : '$' ∉ s) :
    replaceVarsAux tbl (s ++ rest).length (s ++ rest)
      = s ++ replaceVarsAux tbl rest.length rest := by
  induction s with
  | nil => simp
  | cons c s ih =>
    have hc : c ≠ '$' := by
      intro hcon
      exact hs (by rw [hcon]; exact List.mem_cons_self _ _)
    have hmv := matchVar_ne_dollar c (s ++ rest) hc
    rw [List.cons_append, List.length_cons]
    simp only [replaceVarsAux, hmv]
    rw [ih (fun hz => hs (List.mem_cons_of_mem c hz)), List.cons_append]

/-- Scanning a well-formed placeholder resolves it and continues after it. -/
theorem replaceVars_var (tbl : List (String × String)) (n rest : List Char)
    (hn : n ≠ []) (hb : braceC ∉ n) :
    replaceVarsAux tbl ('$' :: braceO :: (n ++ braceC :: rest)).length
        ('$' :: braceO :: (n ++ braceC :: rest))
      = resolveVar tbl (String.mk n) ++ replaceVarsAux tbl rest.length rest := by
  have ht : (n ++ braceC :: rest).takeWhile (fun c => c ≠ braceC) = n := by
    apply takeWhile_append_eq
    · intro x hx
      simp only [decide_eq_true_eq]
      intro hcon
      exact hb (hcon ▸ hx)
    · simp
  have hmv : matchVar ('$' :: braceO :: (n ++ braceC :: rest))
      = some (String.mk n, n.length + 3) := by
    simp only [matchVar, ht, List.drop_left, List.isEmpty_eq_true, hn]
    simp
  have hlen : ('$' :: braceO :: (n ++ braceC :: rest)).length
      = (n.length + rest.length + 2) + 1 := by
    simp only [List.length_cons, List.length_append]
    omega
  have hdrop : ('$' :: braceO :: (n ++ braceC :: rest)).drop (n.length + 3) = rest := by
    show (braceO :: (n ++ braceC :: rest)).drop (n.length + 2) = rest
    show (n ++ braceC :: rest).drop (n.length + 1) = rest
    rw [← List.drop_drop, List.drop_left]
    rfl
  rw [hlen]
  simp only [replaceVarsAux, hmv, hdrop]
  congr 1
  exact replaceVarsAux_fuel tbl _ _ rest (by omega) (le_refl _)

/-- Scanning a rendered piece list resolves exactly its placeholders. -/
theorem replaceVars_pieces (tbl : List (String × String)) :
    ∀ ps : List RPiece, (∀ p ∈ ps, goodPiece p) →
    replaceVarsAux tbl (renderPieces ps).length (renderPieces ps)
      = resolvePieces tbl ps := by
  intro ps
  induction ps with
  | nil => intro _; rfl
  | cons p ps ih =>
    intro h
    have hp := h p (List.mem_cons_self p ps)
    have hps := ih (fun x hx => h x (List.mem_cons_of_mem p hx))
    cases p with
    | lit s =>
      show replaceVarsAux tbl (s.data ++ renderPieces ps).length
          (s.data ++ renderPieces ps) = s.data ++ resolvePieces tbl ps
      rw [replaceVars_lit tbl s.data (renderPieces ps) hp, hps]
    | var n =>
      obtain ⟨hn, hb⟩ := hp
      have hshape : renderPieces (RPiece.var n :: ps)
          = '$' :: braceO :: (n.data ++ braceC :: renderPieces ps) := by
        show ('$' :: braceO :: (n.data ++ [braceC])) ++ renderPieces ps = _
        simp
      rw [hshape, replaceVars_var tbl n.data (renderPieces ps) hn hb, hps]
      rfl

/-- Trim loop returns the input unchanged when the pattern does not match its
front. -/
theorem trimStartAux_no_match (pat : List Char) (f : Nat) (cs : List Char)
    (h : startsChars pat cs = false) : trimStartMatchesAux pat f cs = cs := by
  cases f with
  | zero => rfl
  | succ f =>
    cases cs with
    | nil => rfl
    | cons c t =>
      simp only [trimStartMatchesAux, h]
      simp

/-- Trim loop strips one pattern copy from the front when it matches. -/
theorem trimStartAux_match_step (pat : List Char) (f : Nat) (c : Char)
    (t : List Char) (hp : pat.isEmpty = false) (h : startsChars pat (c :: t) = true) :
    trimStartMatchesAux pat (f + 1) (c :: t)
      = trimStartMatchesAux pat f ((c :: t).drop pat.length) := by
  simp only [trimStartMatchesAux, hp, h]
  simp

/-- Inner name of a well-formed dynamic segment: the delimiters are stripped
and the inner text is trimmed (surrounding whitespace inside the braces is
lost). -/
theorem dynamicVarName_wrap (inner : List Char) (h1 : '$' ∉ inner)
    (h2 : braceC ∉ inner) :
    dynamicVarName (String.mk ('$' :: braceO :: (inner ++ [braceC])))
      = String.mk (trimChars inner) := by
  have hZfalse : startsChars ['$', braceO] (inner ++ [braceC]) = false := by
    cases hi : inner with
    | nil => rfl
    | cons a as =>
      have ha : a ≠ '$' := by
        intro hcon
        exact h1 (by rw [hi, hcon]; exact List.mem_cons_self _ _)
      simp [startsChars, Ne.symm ha]
  have e1 : trimStartMatches ['$', braceO] ('$' :: braceO :: (inner ++ [braceC]))
      = inner ++ [braceC] := by
    unfold trimStartMatches
    rw [show ('$' :: braceO :: (inner ++ [braceC])).length
      = ((inner ++ [braceC]).length) + 1 + 1 from by simp]
    rw [trimStartAux_match_step _ _ _ _ (by rfl) (by simp [startsChars])]
    exact trimStartAux_no_match _ _ _ hZfalse
  have hrevfalse : startsChars [braceC] inner.reverse = false := by
    cases hr : inner.reverse with
    | nil => rfl
    | cons a as =>
      have ha : a ≠ braceC := by
        intro hcon
        apply h2
        rw [hcon] at hr
        have : braceC ∈ inner.reverse := by rw [hr]; exact List.mem_cons_self _ _
        exact List.mem_reverse.mp this
      simp [startsChars, Ne.symm ha]
  have e2 : trimEndMatches [braceC] (inner ++ [braceC]) = inner := by
    unfold trimEndMatches trimStartMatches
    rw [show ([braceC] : List Char).reverse = [braceC] from rfl]
    rw [show (inner ++ [braceC]).reverse = braceC :: inner.reverse from by simp]
    rw [show (braceC :: inner.reverse).length = inner.reverse.length + 1 from by simp]
    rw [trimStartAux_match_step _ _ _ _ (by rfl) (by simp [startsChars])]
    rw [show (braceC :: inner.reverse).drop ([braceC] : List Char).length
      = inner.reverse from rfl]
    rw [trimStartAux_no_match _ _ _ hrevfalse]
    exact List.reverse_reverse inner
  unfold dynamicVarName
  rw [show (String.mk ('$' :: braceO :: (inner ++ [braceC]))).data
    = '$' :: braceO :: (inner ++ [braceC]) from rfl]
  rw [e1, e2]

/-- Resolution through the empty table restores every piece verbatim. -/
theorem resolvePieces_empty_tbl : ∀ ps : List RPiece,
    resolvePieces [] ps = renderPieces ps := by
  intro ps
  induction ps with
  | nil => rfl
  | cons p ps ih =>
    cases p with
    | lit s =>
      show s.data ++ resolvePieces [] ps = s.data ++ renderPieces ps
      rw [ih]
    | var n =>
      show resolveVar [] n ++ resolvePieces [] ps
        = ('$' :: braceO :: (n.data ++ [braceC])) ++ renderPieces ps
      rw [ih]
      rfl

/-- C6, amended: substitution in description text replaces every well-formed
placeholder whose name is a key and restores every other placeholder
verbatim; in the attribute-path resolution of src/lib.rs, however, the inner
name of a dynamic segment is trimmed before lookup and an absent placeholder
is re-rendered from the trimmed name, so inner padding is normalized away
rather than kept. -/
theorem C6_substitution_amended :
    (∀ (ps : List RPiece) (tbl : List (String × String)),
      (∀ p ∈ ps, goodPiece p) →
      apply_replacements (String.mk (renderPieces ps)) tbl
        = String.mk (resolvePieces tbl ps)) ∧
    (∀ (inner : String) (tbl : List (String × String)),
      '$' ∉ inner.data → braceC ∉ inner.data →
      parse_attrpath_lib
        [⟨.dynamic, String.mk ('$' :: braceO :: (inner.data ++ [braceC]))⟩] tbl
        = (tbl.lookup (String.mk (trimChars inner.data))).getD
            ("$" ++ String.mk [braceO] ++ String.mk (trimChars inner.data)
              ++ String.mk [braceC])) := by
  constructor
  · intro ps tbl h
    by_cases ht : tbl.isEmpty
    · have htbl : tbl = [] := List.isEmpty_iff.mp ht
      subst htbl
      simp only [apply_replacements, List.isEmpty_nil, if_true]
      rw [resolvePieces_empty_tbl]
    · simp only [apply_replacements, ht, if_false]
      exact congrArg String.mk (replaceVars_pieces tbl ps h)
  · intro inner tbl h1 h2
    unfold parse_attrpath_lib
    simp only [List.filterMap_cons, List.filterMap_nil, attrSegResolve]
    rw [dynamicVarName_wrap inner.data h1 h2]
    cases tbl.lookup (String.mk (trimChars inner.data)) <;> rfl

/-- C6 counterexample: a dynamic path segment with padding inside the braces
and a name absent from the table is re-rendered without the padding, not left
textually unchanged. -/
theorem C6_counterexample :
    parse_attrpath_lib [⟨.dynamic, "$\x7b ns \x7d"⟩] [("other", "x")]
      = "$\x7bns\x7d" ∧ ("$\x7bns\x7d" : String) ≠ "$\x7b ns \x7d" := by
  exact ⟨by decide, by decide⟩

/-- C6 witness: the amended theorem applied to a concrete piece list with one
known and one unknown placeholder, and to a concrete padded dynamic segment. -/
theorem C6_witness :
    apply_replacements "Enable $\x7bns\x7d for $\x7bsys\x7d."
      [("ns", "snowflake")] = "Enable snowflake for $\x7bsys\x7d." ∧
    parse_attrpath_lib [⟨.dynamic, "$\x7b ns \x7d"⟩] [("ns", "snowflake")]
      = "snowflake" := by
  constructor
  · have h := C6_substitution_amended.1
      [RPiece.lit "Enable ", RPiece.var "ns", RPiece.lit " for ",
       RPiece.var "sys", RPiece.lit "."] [("ns", "snowflake")]
      (by
        intro p hp
        fin_cases hp <;> simp [goodPiece] <;> decide)
    refine Eq.trans (Eq.trans (by decide) h) (by decide)
  · have h := C6_substitution_amended.2 " ns " [("ns", "snowflake")]
      (by decide) (by decide)
    refine Eq.trans (Eq.trans (by decide) h) (by decide)

/-- List whose members all satisfy the predicate is its own takeWhile. -/
theorem takeWhile_all {α : Type} {p : α → Bool} (cs : List α)
    (h : ∀ c ∈ cs, p c = true) : cs.takeWhile p = cs := by
  induction cs with
  | nil => rfl
  | cons c cs ih =>
    simp only [List.takeWhile_cons, h c (List.mem_cons_self c cs), if_true]
    rw [ih (fun z hz => h z (List.mem_cons_of_mem c hz))]

/-- Dedent of a text without line breaks returns it unchanged. -/
theorem custom_dedent_no_nl (s : String) (h : ∀ c ∈ s.data, c ≠ '\n') :
    custom_dedent s = s := by
  have ht : s.data.takeWhile (fun c => decide (c ≠ '\n')) = s.data := by
    apply takeWhile_all
    intro c hc
    simpa using h c hc
  unfold custom_dedent
  simp only [ht]
  simp

/-- Directive match needs an opening brace at the head. -/
theorem matchDirective_ne (c : Char) (t : List Char) (hc : c ≠ braceO) :
    matchDirective (c :: t) = none := by
  simp [matchDirective, hc]

/-- Directive stripping of a brace-free text is the identity. -/
theorem stripDirectivesAux_no_brace (f : Nat) (cs : List Char)
    (h : braceO ∉ cs) : stripDirectivesAux f cs = cs := by
  induction f generalizing cs with
  | zero => rfl
  | succ f ih =>
    cases cs with
    | nil => rfl
    | cons c rest =>
      have hc : c ≠ braceO := by
        intro hcon
        exact h (by rw [hcon]; exact List.mem_cons_self _ _)
      simp only [stripDirectivesAux, matchDirective_ne c rest hc]
      rw [ih rest (fun hz => h (List.mem_cons_of_mem c hz))]

/-- Admonition match needs an opening brace somewhere in the input. -/
theorem matchAdmonition_no_brace (cs : List Char) (h : braceO ∉ cs) :
    matchAdmonition cs = none := by
  unfold matchAdmonition
  cases hs : startsChars [':', ':', ':'] cs
  · simp
  · simp only [if_true]
    split
    case h_2 => rfl
    case h_1 c1 c2 rest heq =>
      have hc1 : c1 ∈ cs := by
        have h1 : c1 ∈ (cs.drop 3).drop
            ((cs.drop 3).takeWhile (fun c => c.isWhitespace)).length := by
          rw [heq]; exact List.mem_cons_self _ _
        exact (List.drop_subset _ _) ((List.drop_subset _ _) h1)
      have : c1 ≠ braceO := fun hcon => h (hcon ▸ hc1)
      simp [this]

/-- Admonition conversion of a brace-free text is the identity. -/
theorem convertAdmonitionsAux_no_brace (f : Nat) (cs : List Char)
    (h : braceO ∉ cs) : convertAdmonitionsAux f cs = cs := by
  induction f generalizing cs with
  | zero => rfl
  | succ f ih =>
    cases cs with
    | nil => rfl
    | cons c rest =>
      simp only [convertAdmonitionsAux, matchAdmonition_no_brace (c :: rest) h]
      rw [ih rest (fun hz => h (List.mem_cons_of_mem c hz))]

/-- Normalization acts as the identity on single-line brace-free text under an
empty substitution table. -/
theorem process_description_id (x : String)
    (h : ∀ c ∈ x.data, c ≠ braceO ∧ c ≠ '\n') :
    process_description x [] = x := by
  have hmk : String.mk x.data = x := by cases x; rfl
  have h1 : apply_replacements x [] = x := by simp [apply_replacements]
  have h2 : custom_dedent x = x := custom_dedent_no_nl x (fun c hc => (h c hc).2)
  have h3 : String.mk (stripDirectivesAux x.data.length x.data) = x := by
    rw [stripDirectivesAux_no_brace _ _ (fun hz => (h braceO hz).1 rfl), hmk]
  have h4 : convert_admonitions x = x := by
    unfold convert_admonitions
    rw [convertAdmonitionsAux_no_brace _ _ (fun hz => (h braceO hz).1 rfl), hmk]
  unfold process_description clean_description
  rw [h1, h2, h3, h4]

/-- C7, amended: normalization is single-pass and not idempotent in general
(directive stripping applied once can expose a new directive-shaped span, and
substitution can introduce new placeholders); on text without braces and line
breaks, under an empty substitution table, normalization is the identity and
hence idempotent. -/
theorem C7_idempotent_amended (x : String)
    (h : ∀ c ∈ x.data, c ≠ braceO ∧ c ≠ '\n') :
    process_description (process_description x []) [] = process_description x [] := by
  rw [process_description_id x h, process_description_id x h]

/-- C7 counterexample: stacked directive roles make normalization
non-idempotent, already with an empty substitution table. -/
theorem C7_counterexample :
    process_description "\x7ba\x7d\x7bb\x7d`x`" [] = "\x7ba\x7d`x`" ∧
    process_description "\x7ba\x7d`x`" [] = "`x`" ∧
    ("\x7ba\x7d`x`" : String) ≠ "`x`" :=
  ⟨by decide, by decide, by decide⟩

/-- C7 witness: the amended theorem applied to a concrete plain description. -/
theorem C7_witness :
    process_description (process_description "Enable the nginx service." []) []
      = process_description "Enable the nginx service." [] :=
  C7_idempotent_amended "Enable the nginx service." (by decide)

/-- Admonition scanner on the empty input. -/
theorem convertAdmonitionsAux_nil (f : Nat) : convertAdmonitionsAux f [] = [] := by
  cases f <;> rfl

/-- Admonition match computed on one well-formed block: the kind is the
lowercase run, the content is everything up to the first closing fence, and
the whole block is consumed. -/
theorem matchAdmonition_block (kind content : String) (hk1 : kind.data ≠ [])
    (hk2 : ∀ c ∈ kind.data, isLowerAZ c = true)
    (hc : firstTripleIdx (content.data ++ [':', ':', ':'])
      = some content.data.length) :
    matchAdmonition (':' :: ':' :: ':' :: braceO :: '.'
        :: (kind.data ++ braceC :: (content.data ++ [':', ':', ':'])))
      = some (kind, content.data,
          3 + 0 + 2 + kind.data.length + 1 + content.data.length + 3) := by
  have hne : kind.data.isEmpty = false := by
    cases hkd0 : kind.data with
    | nil => exact absurd hkd0 hk1
    | cons k0 ks => rfl
  have hws : (braceO :: '.' :: (kind.data ++ braceC
      :: (content.data ++ [':', ':', ':']))).takeWhile
        (fun c => c.isWhitespace) = [] := by
    simp only [List.takeWhile_cons, show braceO.isWhitespace = false from by decide,
      if_false]
    simp
  have hkd : (kind.data ++ braceC :: (content.data ++ [':', ':', ':'])).takeWhile
      isLowerAZ = kind.data :=
    takeWhile_append_eq _ _ _ hk2 (by decide)
  unfold matchAdmonition
  rw [show startsChars [':', ':', ':'] (':' :: ':' :: ':' :: braceO :: '.'
    :: (kind.data ++ braceC :: (content.data ++ [':', ':', ':']))) = true
    from by simp [startsChars]]
  simp only [if_true, List.drop_succ_cons, List.drop_zero, hws, List.length_nil,
    hkd, hne, List.drop_left, hc, Bool.false_eq_true, if_false, List.take_left]
  simp

/-- Data of an appended string is the appended data. -/
theorem string_data_append (a b : String) : (a ++ b).data = a.data ++ b.data := by
  cases a
  cases b
  rfl

/-- Strings with equal data are equal. -/
theorem string_eq_of_data {a b : String} (h : a.data = b.data) : a = b :=
  congrArg String.mk h

/-- C3, amended: the admonition converter rewrites every fenced block whose
kind is a nonempty lowercase-letter run, mapping note, tip, important and
warning to their uppercase forms and caution to WARNING (not CAUTION), any
other lowercase kind falling back to NOTE; the callout is the kind line with
two trailing spaces followed by the trimmed content with every line break
prefixed by a quote marker; matching is case-sensitive, so a kind holding an
uppercase letter is left unchanged. -/
theorem C3_admonitions_amended (kind content : String) (hk1 : kind.data ≠ [])
    (hk2 : ∀ c ∈ kind.data, isLowerAZ c = true)
    (hc : firstTripleIdx (content.data ++ [':', ':', ':'])
      = some content.data.length) :
    (convert_admonitions (":::" ++ String.mk [braceO] ++ "." ++ kind
        ++ String.mk [braceC] ++ content ++ ":::")
      = "> [!" ++ githubType kind ++ "]  \n> "
        ++ String.mk (replaceNlChars (trimChars content.data))) ∧
    convert_admonitions ":::\x7b.Note\x7dX:::" = ":::\x7b.Note\x7dX:::" := by
  refine ⟨?_, by decide⟩
  have hdata : (":::" ++ String.mk [braceO] ++ "." ++ kind
      ++ String.mk [braceC] ++ content ++ ":::").data
      = ':' :: ':' :: ':' :: braceO :: '.'
        :: (kind.data ++ braceC :: (content.data ++ [':', ':', ':'])) := by
    simp [string_data_append]
  have hmatch := matchAdmonition_block kind content hk1 hk2 hc
  apply string_eq_of_data
  show (convert_admonitions _).data = _
  unfold convert_admonitions
  rw [show ∀ l : List Char, (String.mk l).data = l from fun l => rfl]
  rw [hdata]
  have hlen : (':' :: ':' :: ':' :: braceO :: '.'
      :: (kind.data ++ braceC :: (content.data ++ [':', ':', ':']))).length
      = (kind.data.length + content.data.length + 8) + 1 := by
    simp only [List.length_cons, List.length_append, List.length_nil]
    omega
  rw [hlen]
  simp only [convertAdmonitionsAux, hmatch]
  rw [List.drop_of_length_le (by
    simp only [List.length_cons, List.length_append, List.length_nil]
    omega)]
  rw [convertAdmonitionsAux_nil, List.append_nil]
  simp [admonitionRepl, string_data_append]

/-- C3 counterexample: the caution kind is rewritten to a WARNING callout,
not to the upper-cased CAUTION the claim states. -/
theorem C3_counterexample :
    convert_admonitions ":::\x7b.caution\x7d\nX\n:::" = "> [!WARNING]  \n> X" ∧
    ("> [!WARNING]  \n> X" : String) ≠ "> [!CAUTION]  \n> X" :=
  ⟨by decide, by decide⟩

/-- C3 witness: the amended theorem applied to a concrete caution block,
reproducing the claim example shape with the caution kind. -/
theorem C3_witness :
    convert_admonitions (":::" ++ String.mk [braceO] ++ "." ++ "caution"
      ++ String.mk [braceC] ++ "\nThis is a warning.\n" ++ ":::")
      = "> [!WARNING]  \n> This is a warning." := by
  have h := (C3_admonitions_amended "caution" "\nThis is a warning.\n"
    (by decide) (by decide) (by decide)).1
  exact h.trans (by decide)

/-- Line split never returns an empty list of segments. -/
theorem splitNl_ne_nil (cs : List Char) : splitNl cs ≠ [] := by
  cases cs with
  | nil => simp [splitNl]
  | cons c t =>
    by_cases h : c = '\n'
    · simp [splitNl, h]
    · simp only [splitNl, h, if_false]
      split <;> simp

/-- Line split after a break-free stretch peels that stretch off. -/
theorem splitNl_append_nl (a b : List Char) (h : '\n' ∉ a) :
    splitNl (a ++ '\n' :: b) = a :: splitNl b := by
  induction a with
  | nil => simp [splitNl]
  | cons c t ih =>
    have hc : c ≠ '\n' := fun hcon => h (by rw [hcon]; exact List.mem_cons_self _ _)
    have ht := ih (fun hz => h (List.mem_cons_of_mem c hz))
    simp only [List.cons_append, splitNl, hc, if_false, List.append_eq]
    rw [ht]

/-- Line split of a break-free text is that text as a single segment. -/
theorem splitNl_no_nl (a : List Char) (h : '\n' ∉ a) : splitNl a = [a] := by
  induction a with
  | nil => rfl
  | cons c t ih =>
    have hc : c ≠ '\n' := fun hcon => h (by rw [hcon]; exact List.mem_cons_self _ _)
    have ht := ih (fun hz => h (List.mem_cons_of_mem c hz))
    simp only [splitNl, hc, if_false]
    rw [ht]

/-- Segments produced by the line split hold no line break. -/
theorem splitNl_mem_no_nl (cs : List Char) :
    ∀ l ∈ splitNl cs, '\n' ∉ l := by
  induction cs with
  | nil =>
    intro l hl
    simp [splitNl] at hl
    simp [hl]
  | cons c t ih =>
    intro l hl
    by_cases hc : c = '\n'
    · simp only [splitNl, hc, if_true] at hl
      rcases List.mem_cons.mp hl with h1 | h1
      · simp [h1]
      · exact ih l h1
    · simp only [splitNl, hc, if_false] at hl
      cases hsp : splitNl t with
      | nil => exact absurd hsp (splitNl_ne_nil t)
      | cons h0 r =>
        rw [hsp] at hl
        rcases List.mem_cons.mp hl with h1 | h1
        · subst h1
          intro hmem
          rcases List.mem_cons.mp hmem with h2 | h2
          · exact hc h2.symm
          · exact ih h0 (by rw [hsp]; exact List.mem_cons_self _ _) h2
        · exact ih l (by rw [hsp]; exact List.mem_cons_of_mem h0 h1)

/-- Matching front run is an append decomposition. -/
theorem startsChars_iff_append (p l : List Char) :
    startsChars p l = true ↔ ∃ t, l = p ++ t := by
  induction p generalizing l with
  | nil => simp [startsChars]
  | cons x xs ih =>
    cases l with
    | nil =>
      simp [startsChars]
    | cons c cs =>
      simp only [startsChars, Bool.and_eq_true, decide_eq_true_eq, ih,
        List.cons_append, List.cons.injEq]
      constructor
      · rintro ⟨rfl, t, rfl⟩
        exact ⟨t, rfl, rfl⟩
      · rintro ⟨t, rfl, rfl⟩
        exact ⟨rfl, t, rfl⟩

/-- Common indent entries are whitespace. -/
theorem computeIndent_ws (ls : List (List Char)) :
    ∀ c ∈ computeIndent ls, c.isWhitespace = true := by
  induction ls with
  | nil => intro c hc; simp [computeIndent] at hc
  | cons l ls ih =>
    intro c hc
    by_cases h : l.any (fun c => ¬ c.isWhitespace)
    · simp only [computeIndent, h, if_true] at hc
      have base : ∀ x ∈ l.takeWhile (fun c => c.isWhitespace),
          x.isWhitespace = true := fun x hx => List.mem_takeWhile_imp hx
      have sub : ∀ (p : List Char) (rs : List (List Char)),
          (∀ x ∈ p, x.isWhitespace = true) →
          ∀ x ∈ foldIndent p rs, x.isWhitespace = true := by
        intro p rs
        induction rs generalizing p with
        | nil => intro hp x hx; exact hp x hx
        | cons r rs ihr =>
          intro hp x hx
          apply ihr (shortenIndent p r) _ x hx
          intro z hz
          simp only [shortenIndent] at hz
          split at hz
          · exact hp z (List.mem_of_mem_take hz)
          · exact hp z hz
      exact sub _ _ base c hc
    · simp only [computeIndent, h, if_false] at hc
      exact ih c hc

/-- Rebuilt line that is all whitespace is empty. -/
theorem processLine_allws_eq_nil (p l : List Char)
    (hp : ∀ c ∈ p, c.isWhitespace = true)
    (h : ∀ c ∈ processLine p l, c.isWhitespace = true) : processLine p l = [] := by
  unfold processLine at h ⊢
  split
  case isTrue hcond =>
    rw [if_pos hcond] at h
    obtain ⟨hpre, hany⟩ := hcond
    obtain ⟨t, rfl⟩ := (startsChars_iff_append p _).mp hpre
    rw [List.drop_left] at h ⊢
    rw [List.any_eq_true] at hany
    obtain ⟨x, hx, hxw⟩ := hany
    simp only [decide_eq_true_eq] at hxw
    rcases List.mem_append.mp hx with h1 | h1
    · exact absurd (hp x h1) hxw
    · exact absurd (h x h1) hxw
  case isFalse => rfl

/-- Lines of a text hold no line break. -/
theorem linesOf_no_nl (cs : List Char) : ∀ l ∈ linesOf cs, '\n' ∉ l := by
  intro l hl
  obtain ⟨r, hr, rfl⟩ := List.mem_map.mp hl
  have hraw : r ∈ splitNl cs := by
    unfold linesRaw at hr
    split at hr
    · simp at hr
    · split at hr
      · exact List.dropLast_subset _ hr
      · exact hr
  have hno := splitNl_mem_no_nl cs r hraw
  unfold stripCR
  split
  · split
    · exact fun hmem => hno (List.dropLast_subset _ hmem)
    · exact hno
  · exact hno

/-- Splitting a concatenation of break-terminated break-free segments yields
the segments and one trailing empty segment. -/
theorem splitNl_flatMap (g : List Char → List Char) (ls : List (List Char))
    (hg : ∀ l ∈ ls, '\n' ∉ g l) :
    splitNl (ls.flatMap (fun l => g l ++ ['\n'])) = ls.map g ++ [[]] := by
  induction ls with
  | nil => simp [splitNl]
  | cons l ls ih =>
    have h1 : '\n' ∉ g l := hg l (List.mem_cons_self l ls)
    rw [List.flatMap_cons, List.append_assoc, List.singleton_append,
      splitNl_append_nl _ _ h1, ih (fun z hz => hg z (List.mem_cons_of_mem l hz))]
    simp

/-- Splitting the concatenation with its final break removed yields exactly
the segments. -/
theorem splitNl_flatMap_dropLast (g : List Char → List Char) :
    ∀ ls : List (List Char), ls ≠ [] → (∀ l ∈ ls, '\n' ∉ g l) →
    splitNl ((ls.flatMap (fun l => g l ++ ['\n'])).dropLast) = ls.map g := by
  intro ls
  induction ls with
  | nil => intro h; exact absurd rfl h
  | cons l ls ih =>
    intro _ hg
    have h1 : '\n' ∉ g l := hg l (List.mem_cons_self l ls)
    cases hls : ls with
    | nil =>
      subst hls
      rw [List.flatMap_cons, List.flatMap_nil, List.append_nil,
        List.dropLast_concat, splitNl_no_nl _ h1, List.map_cons, List.map_nil]
    | cons l2 ls2 =>
      subst hls
      have hne : (l2 :: ls2).flatMap (fun l => g l ++ ['\n']) ≠ [] := by
        rw [List.flatMap_cons]
        intro hcon
        have h2 := (List.append_eq_nil.mp hcon).1
        have h3 := (List.append_eq_nil.mp h2).2
        simp at h3
      rw [List.flatMap_cons, List.append_assoc, List.singleton_append,
        List.dropLast_append_of_ne_nil _ (List.cons_ne_nil _ _),
        List.dropLast_cons_of_ne_nil hne, splitNl_append_nl _ _ h1,
        ih (List.cons_ne_nil l2 ls2)
          (fun z hz => hg z (List.mem_cons_of_mem l hz)), List.map_cons]
      rfl

/-- Dropping the matched front run is dropWhile. -/
theorem drop_takeWhile_length (p : Char → Bool) (cs : List Char) :
    cs.drop (cs.takeWhile p).length = cs.dropWhile p := by
  induction cs with
  | nil => rfl
  | cons c t ih =>
    by_cases hc : p c <;>
      simp [List.takeWhile_cons, List.dropWhile_cons, hc, ih]

/-- Head left by dropWhile fails the predicate. -/
theorem dropWhile_head_false (p : Char → Bool) (cs : List Char) (c : Char)
    (t : List Char) (h : cs.dropWhile p = c :: t) : p c = false := by
  induction cs with
  | nil => simp [List.dropWhile] at h
  | cons x xs ih =>
    rw [List.dropWhile_cons] at h
    split at h
    · exact ih h
    · rename_i hpx
      have hx : x = c := ((List.cons.injEq x xs c t).mp h).1
      subst hx
      exact Bool.eq_false_iff.mpr hpx

/-- Front run covering the whole list means every element matches. -/
theorem takeWhile_eq_of_length (p : Char → Bool) (cs : List Char)
    (h : (cs.takeWhile p).length = cs.length) : cs.takeWhile p = cs := by
  induction cs with
  | nil => rfl
  | cons c t ih =>
    rw [List.takeWhile_cons] at h ⊢
    split at h
    · rename_i hc
      rw [List.length_cons, List.length_cons] at h
      have h2 : (List.takeWhile p t).length = t.length := by omega
      rw [if_pos hc, ih h2]
    · simp at h

/-- Unfolded form of the dedent result. -/
theorem dedentChars_def (cs : List Char) :
    dedentChars cs
      = (if endsNl ((linesOf cs).flatMap
            (fun l0 => processLine (computeIndent (linesOf cs)) l0 ++ ['\n']))
            ∧ ¬ endsNl cs = true
         then ((linesOf cs).flatMap
            (fun l0 => processLine (computeIndent (linesOf cs)) l0 ++ ['\n'])).dropLast
         else (linesOf cs).flatMap
            (fun l0 => processLine (computeIndent (linesOf cs)) l0 ++ ['\n'])) := rfl

/-- Rebuilt lines hold no line break. -/
theorem processLine_no_nl (cs : List Char) :
    ∀ l0 ∈ linesOf cs, '\n' ∉ processLine (computeIndent (linesOf cs)) l0 := by
  intro l0 hl0 hmem
  have hsub : processLine (computeIndent (linesOf cs)) l0 ⊆ l0 := by
    unfold processLine
    split
    · exact List.drop_subset _ _
    · intro z hz
      simp at hz
  exact linesOf_no_nl cs l0 hl0 (hsub hmem)

/-- Every line of the dedent result is empty or a rebuilt input line. -/
theorem mem_splitNl_dedent (cs : List Char) :
    ∀ l ∈ splitNl (dedentChars cs),
      l = [] ∨ ∃ l0 ∈ linesOf cs,
        l = processLine (computeIndent (linesOf cs)) l0 := by
  intro l hl
  rw [dedentChars_def] at hl
  cases hcase : linesOf cs with
  | nil =>
    rw [hcase] at hl
    simp only [List.flatMap_nil] at hl
    simp [endsNl, splitNl] at hl
    left
    exact hl
  | cons l1 ls1 =>
    rw [← hcase]
    have hg := processLine_no_nl cs
    split at hl
    · rw [splitNl_flatMap_dropLast _ (linesOf cs) (by rw [hcase]; simp) hg] at hl
      obtain ⟨l0, hl0, rfl⟩ := List.mem_map.mp hl
      exact Or.inr ⟨l0, hl0, rfl⟩
    · rw [splitNl_flatMap _ (linesOf cs) hg] at hl
      rcases List.mem_append.mp hl with h1 | h1
      · obtain ⟨l0, hl0, rfl⟩ := List.mem_map.mp h1
        exact Or.inr ⟨l0, hl0, rfl⟩
      · left
        simpa using h1

/-- Lines of a text beginning with a break start with an empty line. -/
theorem linesOf_cons_nl (tail : List Char) :
    ∃ ls2, linesOf ('\n' :: tail) = [] :: ls2 := by
  have hsplit : splitNl ('\n' :: tail) = [] :: splitNl tail := by simp [splitNl]
  unfold linesOf linesRaw
  rw [hsplit]
  simp only [List.isEmpty_cons, Bool.false_eq_true, if_false]
  split
  · cases hsp : splitNl tail with
    | nil => exact absurd hsp (splitNl_ne_nil tail)
    | cons a r =>
      rw [List.dropLast_cons_of_ne_nil (List.cons_ne_nil a r), List.map_cons]
      exact ⟨_, rfl⟩
  · rw [List.map_cons]
    exact ⟨_, rfl⟩

/-- Lines collapsing to a single empty line force a trailing break. -/
theorem linesOf_singleton_empty (tail : List Char)
    (h : linesOf ('\n' :: tail) = [[]]) : endsNl ('\n' :: tail) = true := by
  unfold linesOf linesRaw at h
  rw [show splitNl ('\n' :: tail) = [] :: splitNl tail from by simp [splitNl]] at h
  simp only [List.isEmpty_cons, Bool.false_eq_true, if_false] at h
  by_cases he : endsNl ('\n' :: tail) = true
  · exact he
  · rw [if_neg (by simpa using he)] at h
    rw [List.map_cons] at h
    have hlen := congrArg List.length h
    simp only [List.length_cons, List.length_map, List.length_nil] at hlen
    have : splitNl tail = [] := List.length_eq_zero.mp (by omega)
    exact absurd this (splitNl_ne_nil tail)

/-- Dedent keeps the leading break of a text that starts with one. -/
theorem dedentChars_cons_nl (tail : List Char) :
    ∃ X, dedentChars ('\n' :: tail) = '\n' :: X := by
  obtain ⟨ls2, hlines⟩ := linesOf_cons_nl tail
  have hgen : ∀ g : List Char → List Char, g [] = [] →
      (linesOf ('\n' :: tail)).flatMap (fun l0 => g l0 ++ ['\n'])
        = '\n' :: ls2.flatMap (fun l0 => g l0 ++ ['\n']) := by
    intro g hg
    rw [hlines, List.flatMap_cons, hg]
    rfl
  have hbody := hgen (processLine (computeIndent (linesOf ('\n' :: tail))))
    (by simp [processLine])
  rw [dedentChars_def, hbody]
  split
  case isTrue hcond =>
    cases hRc : ls2.flatMap
        (fun l0 => processLine (computeIndent (linesOf ('\n' :: tail))) l0 ++ ['\n']) with
    | nil =>
      exfalso
      have hls2 : ls2 = [] := by
        cases ls2 with
        | nil => rfl
        | cons a as =>
          rw [List.flatMap_cons] at hRc
          simp at hRc
      subst hls2
      exact hcond.2 (linesOf_singleton_empty tail hlines)
    | cons c rest =>
      rw [List.dropLast_cons_of_ne_nil (List.cons_ne_nil c rest)]
      exact ⟨_, rfl⟩
  case isFalse =>
    exact ⟨_, rfl⟩

/-- Unfolded form of custom_dedent. -/
theorem custom_dedent_def (s : String) :
    custom_dedent s
      = (if (s.data.takeWhile (fun c => c ≠ '\n')).length = s.data.length then s
         else String.mk (s.data.takeWhile (fun c => c ≠ '\n')
           ++ dedentChars (s.data.drop
             (s.data.takeWhile (fun c => c ≠ '\n')).length))) := rfl

/-- First-line run of the input holds no break. -/
theorem takeWhile_ne_nl_no_nl (cs : List Char) :
    '\n' ∉ cs.takeWhile (fun c => decide (c ≠ '\n')) := by
  intro hmem
  have := List.mem_takeWhile_imp hmem
  simp at this

/-- C5, amended: dedent preserves the first line exactly; from every
remaining line holding a non-whitespace character it strips the computed
common leading-whitespace run, while every remaining line consisting only of
whitespace is replaced by an empty line (its content is erased, not merely
shortened); the claim example still holds. -/
theorem C5_dedent_amended :
    (custom_dedent "A\n  B\n  C" = "A\nB\nC") ∧
    (∀ s : String, (custom_dedent s).data.takeWhile (fun c => c ≠ '\n')
      = s.data.takeWhile (fun c => c ≠ '\n')) ∧
    (∀ (s : String) (l : List Char),
      l ∈ (splitNl (custom_dedent s).data).tail →
      (∀ c ∈ l, c.isWhitespace = true) → l = []) := by
  refine ⟨by decide, ?_, ?_⟩
  · intro s
    rw [custom_dedent_def]
    by_cases hlen : (s.data.takeWhile (fun c => decide (c ≠ '\n'))).length
        = s.data.length
    · rw [if_pos hlen]
    · rw [if_neg hlen]
      rw [drop_takeWhile_length]
      cases hdw : s.data.dropWhile (fun c => decide (c ≠ '\n')) with
      | nil =>
        exfalso
        have hsplit := List.takeWhile_append_dropWhile
          (p := fun c => decide (c ≠ '\n')) (l := s.data)
        rw [hdw, List.append_nil] at hsplit
        exact hlen (by rw [hsplit])
      | cons c t =>
        have hc : (decide (c ≠ '\n')) = false := dropWhile_head_false _ _ _ _ hdw
        have hc2 : c = '\n' := by simpa using hc
        subst hc2
        obtain ⟨X, hX⟩ := dedentChars_cons_nl t
        rw [hX]
        rw [show ∀ l : List Char, (String.mk l).data = l from fun l => rfl]
        exact takeWhile_append_eq _ '\n' X
          (by
            intro x hx
            exact List.mem_takeWhile_imp (p := fun c => decide (c ≠ '\n'))
              (l := s.data) (x := x) hx) (by simp)
  · intro s l hl hws
    rw [custom_dedent_def] at hl
    by_cases hlen : (s.data.takeWhile (fun c => decide (c ≠ '\n'))).length
        = s.data.length
    · rw [if_pos hlen] at hl
      have hall := takeWhile_eq_of_length _ _ hlen
      have hno : '\n' ∉ s.data := by
        intro hmem
        have := List.mem_takeWhile_imp (l := s.data)
          (p := fun c => decide (c ≠ '\n')) (by rw [hall]; exact hmem)
        simp at this
      rw [splitNl_no_nl s.data hno] at hl
      simp at hl
    · rw [if_neg hlen] at hl
      rw [drop_takeWhile_length] at hl
      cases hdw : s.data.dropWhile (fun c => decide (c ≠ '\n')) with
      | nil =>
        exfalso
        have hsplit := List.takeWhile_append_dropWhile
          (p := fun c => decide (c ≠ '\n')) (l := s.data)
        rw [hdw, List.append_nil] at hsplit
        exact hlen (by rw [hsplit])
      | cons c t =>
        have hc : (decide (c ≠ '\n')) = false := dropWhile_head_false _ _ _ _ hdw
        have hc2 : c = '\n' := by simpa using hc
        subst hc2
        rw [hdw] at hl
        obtain ⟨X, hX⟩ := dedentChars_cons_nl t
        rw [hX] at hl
        rw [show ∀ l : List Char, (String.mk l).data = l from fun l => rfl] at hl
        rw [splitNl_append_nl _ _ (takeWhile_ne_nl_no_nl s.data)] at hl
        have hmem : l ∈ splitNl (dedentChars ('\n' :: t)) := by
          rw [hX, show splitNl ('\n' :: X) = [] :: splitNl X from by simp [splitNl]]
          exact List.mem_cons_of_mem _ hl
        rcases mem_splitNl_dedent ('\n' :: t) l hmem with h1 | ⟨l0, hl0, rfl⟩
        · exact h1
        · exact processLine_allws_eq_nil _ _ (computeIndent_ws _) hws

/-- C5 counterexample: a whitespace-only interior line longer than the common
run is erased to an empty line, not stripped by the run length as the claim
states. -/
theorem C5_counterexample :
    custom_dedent "A\n  B\n    \n  C" = "A\nB\n\nC" ∧
    ("A\nB\n\nC" : String) ≠ "A\nB\n  \nC" :=
  ⟨by decide, by decide⟩

/-- C5 witness: the amended theorem applied to a concrete input with a
whitespace-only interior line. -/
theorem C5_witness :
    (custom_dedent "A\n  B\n    \n  C").data.takeWhile (fun c => c ≠ '\n')
      = ("A\n  B\n    \n  C" : String).data.takeWhile (fun c => c ≠ '\n') ∧
    ([] : List Char) = [] :=
  ⟨C5_dedent_amended.2.1 "A\n  B\n    \n  C",
   C5_dedent_amended.2.2 "A\n  B\n    \n  C" [] (by decide) (by decide)⟩
